import Mathlib

set_option maxRecDepth 100000

/-!
Verification development for the Canvas announcement watcher
(discord-watcher.js and its near-duplicate variant).

The code is shallowly embedded: strings are lists of characters
(JavaScript string indices are UTF-16 units; every character the program
manipulates is in the BMP, so one Lean Char corresponds to one unit),
instants are natural numbers (the code compares timestamps through
new Date, a monotone injection from valid ISO strings into instants),
announcement ids are natural numbers, and the network is abstracted by
passing the fetched item list (respectively a per-item send-success
oracle) as an argument.  All definitions are executable and mirror the
JavaScript line by line.
-/

/-- CanonicalItem as produced by the normalize function of the source:
id, optional timestamp, title, author, url and plain-text message. -/
structure Item where
  id : Nat
  ts : Option Nat
  title : List Char
  author : List Char
  url : List Char
  message : List Char
  deriving DecidableEq

/-- WatermarkState: the mutable state object of the watcher,
holding lastISO and the seenIds list. -/
structure WState where
  lastISO : Option Nat
  seenIds : List Nat
  deriving DecidableEq

/-! ### Text Normalizer (htmlToText) -/

/-- Whitespace class used by the regular expression s-class and by
String.prototype.trim (restricted to the code points the program can
meet). -/
def isWsJS (c : Char) : Bool :=
  c = ' ' || c = '\t' || c = '\n' || c = '\r' || c = '\x0b' || c = '\x0c' || c = ' '

/-- After having read the characters of a br opening, consume the
whitespace-star, an optional slash and the closing angle bracket;
return the rest of the input on success. -/
def brTail : List Char → Option (List Char)
  | [] => none
  | c :: t =>
    if isWsJS c then brTail t
    else if c = '/' then
      match t with
      | '>' :: r => some r
      | _ => none
    else if c = '>' then some t
    else none

/-- Fuelled scanner for the global case-insensitive replacement of br
tags by a newline.  On a failed match the scanner emits one character
and rescans from the next position, exactly like the regex engine. -/
def brReplF : Nat → List Char → List Char
  | 0, l => l
  | _ + 1, [] => []
  | f + 1, c :: t =>
    if c = '<' then
      match t with
      | c1 :: c2 :: t2 =>
        if (c1 = 'b' ∨ c1 = 'B') ∧ (c2 = 'r' ∨ c2 = 'R') then
          match brTail t2 with
          | some r => '\n' :: brReplF f r
          | none => c :: brReplF f t
        else c :: brReplF f t
      | _ => c :: brReplF f t
    else c :: brReplF f t

/-- Replacement of br tags by a newline (fuel set to the input length,
which bounds the number of scanner steps). -/
def brRepl (l : List Char) : List Char := brReplF l.length l

/-- Fuelled scanner for the global case-insensitive replacement of
paragraph closings by a newline. -/
def pCloseReplF : Nat → List Char → List Char
  | 0, l => l
  | _ + 1, [] => []
  | f + 1, c :: t =>
    if c = '<' then
      match t with
      | '/' :: c1 :: '>' :: r =>
        if c1 = 'p' ∨ c1 = 'P' then '\n' :: pCloseReplF f r
        else c :: pCloseReplF f t
      | _ => c :: pCloseReplF f t
    else c :: pCloseReplF f t

/-- Global replacement of paragraph closings by a newline. -/
def pCloseRepl (l : List Char) : List Char := pCloseReplF l.length l

/-- Fuelled scanner for the global case-insensitive replacement of
list-item openings by a bullet and a space. -/
def liOpenReplF : Nat → List Char → List Char
  | 0, l => l
  | _ + 1, [] => []
  | f + 1, c :: t =>
    if c = '<' then
      match t with
      | c1 :: c2 :: '>' :: r =>
        if (c1 = 'l' ∨ c1 = 'L') ∧ (c2 = 'i' ∨ c2 = 'I') then
          '•' :: ' ' :: liOpenReplF f r
        else c :: liOpenReplF f t
      | _ => c :: liOpenReplF f t
    else c :: liOpenReplF f t

/-- Global replacement of list-item openings by a bullet and a
space. -/
def liOpenRepl (l : List Char) : List Char := liOpenReplF l.length l

/-- Fuelled scanner for the global case-insensitive replacement of
list-item closings by a newline. -/
def liCloseReplF : Nat → List Char → List Char
  | 0, l => l
  | _ + 1, [] => []
  | f + 1, c :: t =>
    if c = '<' then
      match t with
      | '/' :: c1 :: c2 :: '>' :: r =>
        if (c1 = 'l' ∨ c1 = 'L') ∧ (c2 = 'i' ∨ c2 = 'I') then
          '\n' :: liCloseReplF f r
        else c :: liCloseReplF f t
      | _ => c :: liCloseReplF f t
    else c :: liCloseReplF f t

/-- Global replacement of list-item closings by a newline. -/
def liCloseRepl (l : List Char) : List Char := liCloseReplF l.length l

/-- Scanner for the global removal of remaining tags.  The accumulator
holds, reversed, the characters read since an opening angle bracket
that may still turn into a tag match; it is empty in normal mode.
When a closing bracket arrives, a pending run of length at least two
(the opening bracket plus at least one non-closing character) is a tag
match and is dropped; a run of length one is the unmatched pair of
brackets, which the regex engine leaves in place. -/
def stripT : List Char → List Char → List Char
  | [], pend => pend.reverse
  | c :: t, pend =>
    if pend.isEmpty then
      if c = '<' then stripT t ['<'] else c :: stripT t []
    else
      if c = '>' then
        if 2 ≤ pend.length then stripT t []
        else pend.reverse ++ '>' :: stripT t []
      else stripT t (c :: pend)

/-- Removal of all remaining markup tags. -/
def stripTags (l : List Char) : List Char := stripT l []

/-- Single-pass decoding of the six recognized named character
entities; unrecognized sequences pass through unchanged and
replacements are not rescanned, exactly like a global regex
replacement. -/
def decodeEnts : List Char → List Char
  | '&' :: 'n' :: 'b' :: 's' :: 'p' :: ';' :: r => ' ' :: decodeEnts r
  | '&' :: 'a' :: 'm' :: 'p' :: ';' :: r => '&' :: decodeEnts r
  | '&' :: 'l' :: 't' :: ';' :: r => '<' :: decodeEnts r
  | '&' :: 'g' :: 't' :: ';' :: r => '>' :: decodeEnts r
  | '&' :: 'q' :: 'u' :: 'o' :: 't' :: ';' :: r => '"' :: decodeEnts r
  | '&' :: '#' :: '3' :: '9' :: ';' :: r => '\'' :: decodeEnts r
  | c :: t => c :: decodeEnts t
  | [] => []

/-- Model of String.prototype.trim: drop whitespace from both ends. -/
def jsTrim (l : List Char) : List Char :=
  ((l.dropWhile isWsJS).reverse.dropWhile isWsJS).reverse

/-- Split on newlines, trim every line, join with newlines. -/
def trimLines (l : List Char) : List Char :=
  List.intercalate ['\n'] ((l.splitOn '\n').map jsTrim)

/-- Scanner collapsing every run of three or more newlines to exactly
two; the counter remembers how many consecutive newlines were read. -/
def collapseGo : Nat → List Char → List Char
  | _, [] => []
  | k, c :: t =>
    if c = '\n' then
      if k < 2 then '\n' :: collapseGo (k + 1) t else collapseGo (k + 1) t
    else c :: collapseGo 0 t

/-- Collapse runs of three or more newlines to a single blank line. -/
def collapseNl (l : List Char) : List Char := collapseGo 0 l

/-- The htmlToText function of the source: br, paragraph and list-item
markers to newlines or bullets, removal of the remaining tags, entity
decoding, per-line trimming, blank-line collapsing and a final trim. -/
def htmlToText (html : List Char) : List Char :=
  if html.isEmpty then []
  else
    jsTrim (collapseNl (trimLines (decodeEnts (stripTags
      (liCloseRepl (liOpenRepl (pCloseRepl (brRepl html))))))))

/-! ### Predicates about markup tags and entity codes -/

/-- Does a markup tag (an opening bracket, one or more non-closing
characters, a closing bracket) start at the head of the list? -/
def startsTag : List Char → Bool
  | [] => false
  | c :: t =>
    if c = '<' then
      match t with
      | [] => false
      | d :: u => decide (d ≠ '>') && u.contains '>'
    else false

/-- Does the list contain a markup tag anywhere? -/
def hasTag : List Char → Bool
  | [] => false
  | c :: t => startsTag (c :: t) || hasTag t

/-- The six recognized entity codes. -/
def entCodes : List (List Char) :=
  ["&nbsp;".toList, "&amp;".toList, "&lt;".toList, "&gt;".toList,
   "&quot;".toList, "&#39;".toList]

/-- Does the list contain one of the six recognized entity codes? -/
def hasEnt : List Char → Bool
  | [] => false
  | c :: t => entCodes.any (fun e => e.isPrefixOf (c :: t)) || hasEnt t

/-- Scan certifying the absence of markup tags: every opening bracket
is either immediately closed (an empty pair, which no tag pattern
matches) or never followed by a closing bracket. -/
def okTags : List Char → Bool
  | [] => true
  | c :: t =>
    if c = '<' then
      match t with
      | [] => true
      | d :: u => if d = '>' then okTags (d :: u) else !((d :: u).contains '>')
    else okTags t

/-- Deletion of whitespace characters only: relates a string to any
string obtained from it by removing some whitespace characters while
keeping everything else in order. -/
inductive WDel : List Char → List Char → Prop
  | nil : WDel [] []
  | keep (c : Char) {s t : List Char} : WDel s t → WDel (c :: s) (c :: t)
  | del (c : Char) {s t : List Char} : isWsJS c = true → WDel s t → WDel (c :: s) t

/-! ### Source Fetcher sort -/

/-- Sort key of the newest-first comparator: a missing timestamp is
compared as the epoch instant 0. -/
def sortKey (a : Item) : Nat := a.ts.getD 0

/-- Stable descending insertion: the new element goes before the first
element whose key is not larger, so elements with equal keys keep
their original relative order, as Array.prototype.sort guarantees. -/
def insertTop (a : Item) : List Item → List Item
  | [] => [a]
  | b :: l => if sortKey b ≤ sortKey a then a :: b :: l else b :: insertTop a l

/-- Stable newest-first sort, the model of
list.sort((a, b) => new Date(b.ts || 0) - new Date(a.ts || 0)). -/
def sortItems : List Item → List Item
  | [] => []
  | a :: l => insertTop a (sortItems l)

/-- Pure part of fetchSince: the network and pagination are abstracted
by the concatenated, already-normalized item list, which fetchSince
then sorts newest-first. -/
def fetchSince (raw : List Item) : List Item := sortItems raw

/-! ### Message Formatter -/

/-- Header of a formatted message.  The rendering of a present
timestamp through new Date(ts).toISOString() is abstracted by the
isoRender parameter; a missing timestamp renders as unknown time. -/
def headerOf (isoRender : Nat → List Char) (a : Item) : List Char :=
  let whenTxt := match a.ts with
    | some t => isoRender t
    | none => "unknown time".toList
  "**".toList ++ a.title ++ "**\nPosted: ".toList ++ whenTxt
    ++ " by ".toList ++ a.author ++ "\n\n".toList

/-- Footer of a formatted message: blank line and angle-bracket
wrapped url. -/
def linkLineOf (a : Item) : List Char :=
  "\n\n<".toList ++ a.url ++ ">".toList

/-- Available body budget, Math.max(0, 2000 - header - link) computed
over the integers. -/
def maxBodyOf (isoRender : Nat → List Char) (a : Item) : Nat :=
  (2000 - ((headerOf isoRender a).length : Int) - ((linkLineOf a).length : Int)).toNat

/-- JavaScript String.prototype.slice(0, e): a negative end counts
from the end of the string. -/
def jsSliceTo (l : List Char) (e : Int) : List Char :=
  l.take (if e < 0 then (e + l.length).toNat else e.toNat)

/-- Body of a formatted message: message.slice(0, maxBody - 1) plus an
ellipsis when the message exceeds the budget, the message itself
otherwise. -/
def bodyOf (isoRender : Nat → List Char) (a : Item) : List Char :=
  if maxBodyOf isoRender a < a.message.length then
    jsSliceTo a.message ((maxBodyOf isoRender a : Int) - 1) ++ ['…']
  else a.message

/-- The buildDiscordMessage function: header, body, footer. -/
def buildDiscordMessage (isoRender : Nat → List Char) (a : Item) : List Char :=
  headerOf isoRender a ++ bodyOf isoRender a ++ linkLineOf a

/-! ### State Store -/

/-- New watermark after a commit: newISO wins only when it is present
and strictly later than a present previous watermark. -/
def newLastISO : Option Nat → Option Nat → Option Nat
  | none, old => old
  | some t, none => some t
  | some t, some w => if w < t then some t else some w

/-- Insertion-ordered deduplication, the model of new Set([...]): the
first occurrence of every id is kept. -/
def dedupKeepFirst : List Nat → List Nat
  | [] => []
  | x :: t => x :: (dedupKeepFirst t).filter (fun y => y ≠ x)

/-- Array.prototype.slice(-n): the last n elements, the whole list
when it is shorter. -/
def capLast (n : Nat) (l : List Nat) : List Nat := l.drop (l.length - n)

/-- The updateState function: advance the watermark when strictly
newer, merge the delivered ids into the seen set and cap it at 500,
evicting from the front. -/
def updateState (newISO : Option Nat) (newIds : List Nat) (s : WState) : WState :=
  { lastISO := newLastISO newISO s.lastISO
    seenIds := capLast 500 (dedupKeepFirst (s.seenIds ++ newIds)) }

/-! ### Novelty Filter and Delivery Loop -/

/-- Timestamp disjunct of the filter predicate: no prior watermark, or
a present item timestamp strictly greater than the watermark. -/
def tsNewer (ats : Option Nat) (last : Option Nat) : Bool :=
  match last with
  | none => true
  | some w =>
    match ats with
    | some t => decide (w < t)
    | none => false

/-- The novelty filter of pollOnce: timestamp-newer OR id unseen. -/
def selectNew (list : List Item) (s : WState) : List Item :=
  list.filter (fun a => tsNewer a.ts s.lastISO || !(s.seenIds.contains a.id))

/-- Success of the sequential send loop of postToDiscord: the items
are sent in reverse (oldest first) and the batch succeeds when every
send succeeds; a failure aborts the remaining sends, and no state is
touched while sending. -/
def sendBatch (send : Item → Bool) (items : List Item) : Bool :=
  items.reverse.all send

/-- Order in which postToDiscord emits the payloads. -/
def postOrder (items : List Item) : List Item := items.reverse

/-- The newest timestamp committed by pollOnce:
list[0]?.ts || state.lastISO. -/
def newestTsOf (list : List Item) (s : WState) : Option Nat :=
  match list with
  | [] => s.lastISO
  | a :: _ =>
    match a.ts with
    | some t => some t
    | none => s.lastISO

/-- One poll cycle: fetch (abstracted by raw), filter, send, and
commit only when the batch is nonempty and every send succeeded. -/
def pollOnce (send : Item → Bool) (raw : List Item) (s : WState) : WState :=
  let list := fetchSince raw
  let newer := selectNew list s
  if newer.isEmpty then s
  else if sendBatch send newer then
    updateState (newestTsOf list s) (newer.map (fun a => a.id)) s
  else s

/-- The replayLatest mode: fetch with no start filter, keep the first
n items of the newest-first list, post them oldest first, and return
the state untouched. -/
def replayLatest (n : Nat) (raw : List Item) (s : WState) : List Item × WState :=
  let slice := (fetchSince raw).take n
  (postOrder slice, s)

/-- Comparison of watermarks: an absent watermark is below everything,
a present one must not decrease and must stay present. -/
def lastLe : Option Nat → Option Nat → Bool
  | none, _ => true
  | some _, none => false
  | some a, some b => decide (a ≤ b)

/-- Selection rule as the specification words it: the item is selected
if (no prior watermark timestamp exists, or the item's timestamp is
present and strictly greater than the watermark timestamp) or the
item's id is absent from the recently-seen id set. -/
def specSelected (s : WState) (a : Item) : Bool :=
  (decide (s.lastISO = none) ||
    (match a.ts, s.lastISO with
     | some t, some w => decide (w < t)
     | _, _ => false)) ||
  decide (a.id ∉ s.seenIds)

/-- Does some item with a missing timestamp appear before some item
with a present timestamp? -/
def missBeforePresent : List Item → Bool
  | [] => false
  | a :: t => (a.ts.isNone && t.any (fun b => b.ts.isSome)) || missBeforePresent t

/-- Does some item with a missing timestamp appear before some item
whose timestamp is present and strictly later than the epoch? -/
def missBeforeLater : List Item → Bool
  | [] => false
  | a :: t =>
    (a.ts.isNone && t.any (fun b =>
      match b.ts with
      | some tb => decide (0 < tb)
      | none => false)) || missBeforeLater t

/-! ### Helper lemmas: state store -/

theorem dedupKeepFirst_mem {x : Nat} : ∀ {l : List Nat}, x ∈ dedupKeepFirst l ↔ x ∈ l
  | [] => Iff.rfl
  | y :: t => by
    simp only [dedupKeepFirst, List.mem_cons, List.mem_filter,
      decide_eq_true_eq]
    constructor
    · rintro (rfl | ⟨h, _⟩)
      · exact Or.inl rfl
      · exact Or.inr (dedupKeepFirst_mem.mp h)
    · rintro (rfl | h)
      · exact Or.inl rfl
      · by_cases hxy : x = y
        · exact Or.inl hxy
        · exact Or.inr ⟨dedupKeepFirst_mem.mpr h, hxy⟩

theorem dedupKeepFirst_length_le : ∀ l : List Nat, (dedupKeepFirst l).length ≤ l.length
  | [] => Nat.le_refl 0
  | x :: t => by
    simp only [dedupKeepFirst, List.length_cons]
    have h1 := List.length_filter_le (fun y => decide (y ≠ x)) (dedupKeepFirst t)
    have h2 := dedupKeepFirst_length_le t
    omega

theorem capLast_length_le (n : Nat) (l : List Nat) : (capLast n l).length ≤ n := by
  simp only [capLast, List.length_drop]
  omega

theorem capLast_suffix (n : Nat) (l : List Nat) : capLast n l <:+ l :=
  ⟨l.take (l.length - n), List.take_append_drop _ _⟩

theorem capLast_of_short {n : Nat} {l : List Nat} (h : l.length ≤ n) : capLast n l = l := by
  simp only [capLast]
  rw [Nat.sub_eq_zero_of_le h, List.drop_zero]

/-! ### Claim theorems: state store -/

/-- Claim C3: for every commit, the resulting lastTimestamp is never
earlier than the lastTimestamp held before the commit; once set it
stays set and is monotonically non-decreasing. -/
theorem watermark_monotone : ∀ (newISO : Option Nat) (ids : List Nat) (s : WState),
    lastLe s.lastISO (updateState newISO ids s).lastISO = true := by
  intro newISO ids s
  rcases s with ⟨last, seen⟩
  rcases last with _ | w
  · rfl
  · rcases newISO with _ | t
    · simp [updateState, newLastISO, lastLe]
    · simp only [updateState, newLastISO]
      by_cases h : w < t
      · simp only [if_pos h, lastLe, decide_eq_true_eq]
        omega
      · simp [if_neg h, lastLe]

/-- Claim C6: after any commit from any state the seen-id set holds at
most 500 entries, and it is a suffix of the insertion-ordered merge of
the previous ids with the delivered ids, so the evicted entries are
exactly the oldest ones. -/
theorem seen_ids_bounded : ∀ (newISO : Option Nat) (ids : List Nat) (s : WState),
    (updateState newISO ids s).seenIds.length ≤ 500
    ∧ (updateState newISO ids s).seenIds <:+ dedupKeepFirst (s.seenIds ++ ids) := by
  intro newISO ids s
  exact ⟨capLast_length_le 500 _, capLast_suffix 500 _⟩

/-! ### Helper lemmas: novelty filter -/

theorem specSelected_eq_code (s : WState) (a : Item) :
    (tsNewer a.ts s.lastISO || !(s.seenIds.contains a.id)) = specSelected s a := by
  rcases s with ⟨last, seen⟩
  rcases last with _ | w
  · simp [tsNewer, specSelected]
  · rcases hts : a.ts with _ | t
    · simp [tsNewer, specSelected, hts]
    · simp [tsNewer, specSelected, hts]

theorem specSelected_iff (s : WState) (a : Item) :
    specSelected s a = true ↔
      ((s.lastISO = none ∨ ∃ t w, a.ts = some t ∧ s.lastISO = some w ∧ w < t)
        ∨ a.id ∉ s.seenIds) := by
  rcases s with ⟨last, seen⟩
  rcases last with _ | w
  · simp [specSelected]
  · rcases hts : a.ts with _ | t
    · simp [specSelected, hts]
    · simp [specSelected, hts]

/-! ### Claim theorems: novelty filter and poll cycle -/

/-- Claim C2: the novelty filter selects exactly the items satisfying
the disjunctive rule of the specification, and the selection is a
subsequence of the fetched list, preserving its order. -/
theorem novelty_filter_correct : ∀ (list : List Item) (s : WState),
    selectNew list s = list.filter (specSelected s)
    ∧ (∀ a : Item, specSelected s a = true ↔
        ((s.lastISO = none ∨ ∃ t w, a.ts = some t ∧ s.lastISO = some w ∧ w < t)
          ∨ a.id ∉ s.seenIds))
    ∧ (selectNew list s).Sublist list := by
  intro list s
  exact ⟨List.filter_congr (fun a _ => specSelected_eq_code s a),
    fun a => specSelected_iff s a, List.filter_sublist _⟩

/-- Claim C1: a poll cycle leaves the state untouched when the filter
selects nothing or when some send of the batch fails; the commit runs
only after every send succeeded. -/
theorem poll_no_commit_on_failure (send : Item → Bool) (raw : List Item) (s : WState)
    (h : selectNew (fetchSince raw) s = []
      ∨ sendBatch send (selectNew (fetchSince raw) s) = false) :
    pollOnce send raw s = s := by
  unfold pollOnce
  rcases h with h | h
  · simp [h]
  · by_cases he : selectNew (fetchSince raw) s = []
    · simp [he]
    · simp [he, h]

/-- Concrete instance for the failing-send case of C1: two fresh
items, the send of the second one fails, the state is unchanged. -/
theorem poll_no_commit_on_failure_witness :
    (selectNew (fetchSince [⟨1, some 5, [], [], [], []⟩, ⟨2, some 6, [], [], [], []⟩])
        ⟨none, []⟩ = []
      ∨ sendBatch (fun a => decide (a.id = 1))
          (selectNew (fetchSince [⟨1, some 5, [], [], [], []⟩, ⟨2, some 6, [], [], [], []⟩])
            ⟨none, []⟩) = false)
    ∧ pollOnce (fun a => decide (a.id = 1))
        [⟨1, some 5, [], [], [], []⟩, ⟨2, some 6, [], [], [], []⟩] ⟨none, []⟩ = ⟨none, []⟩ :=
  ⟨Or.inr (by decide), poll_no_commit_on_failure _ _ _ (Or.inr (by decide))⟩

/-! ### Helper lemmas: stable newest-first sort -/

theorem mem_insertTop {a x : Item} : ∀ {l : List Item}, a ∈ insertTop x l ↔ a = x ∨ a ∈ l
  | [] => by simp [insertTop]
  | b :: l => by
    simp only [insertTop]
    by_cases h : sortKey b ≤ sortKey x
    · simp [h]
    · simp only [if_neg h, List.mem_cons]
      rw [mem_insertTop]
      tauto

theorem length_insertTop (x : Item) : ∀ l : List Item, (insertTop x l).length = l.length + 1
  | [] => rfl
  | b :: l => by
    simp only [insertTop]
    by_cases h : sortKey b ≤ sortKey x
    · simp [h]
    · simp [h, length_insertTop x l]

theorem length_sortItems : ∀ l : List Item, (sortItems l).length = l.length
  | [] => rfl
  | a :: l => by simp [sortItems, length_insertTop, length_sortItems l]

theorem mem_sortItems {a : Item} : ∀ {l : List Item}, a ∈ sortItems l ↔ a ∈ l
  | [] => Iff.rfl
  | b :: l => by
    simp only [sortItems, List.mem_cons]
    rw [mem_insertTop, mem_sortItems]

theorem sorted_insertTop {x : Item} :
    ∀ {l : List Item}, l.Pairwise (fun a b => sortKey b ≤ sortKey a) →
      (insertTop x l).Pairwise (fun a b => sortKey b ≤ sortKey a)
  | [], _ => by simp [insertTop]
  | b :: l, h => by
    simp only [insertTop]
    by_cases hb : sortKey b ≤ sortKey x
    · rw [if_pos hb]
      refine List.Pairwise.cons ?_ h
      intro y hy
      rcases List.mem_cons.mp hy with rfl | hy
      · exact hb
      · exact le_trans ((List.pairwise_cons.mp h).1 y hy) hb
    · rw [if_neg hb]
      rcases List.pairwise_cons.mp h with ⟨hbl, hl⟩
      refine List.Pairwise.cons ?_ (sorted_insertTop hl)
      intro y hy
      rcases mem_insertTop.mp hy with rfl | hy
      · exact Nat.le_of_not_le hb
      · exact hbl y hy

theorem sorted_sortItems : ∀ l : List Item,
    (sortItems l).Pairwise (fun a b => sortKey b ≤ sortKey a)
  | [] => List.Pairwise.nil
  | _ :: l => sorted_insertTop (sorted_sortItems l)

theorem missBeforeLater_sorted : ∀ {l : List Item},
    l.Pairwise (fun a b => sortKey b ≤ sortKey a) → missBeforeLater l = false
  | [], _ => rfl
  | a :: t, h => by
    rcases List.pairwise_cons.mp h with ⟨ha, ht⟩
    simp only [missBeforeLater, Bool.or_eq_false_iff]
    refine ⟨?_, missBeforeLater_sorted ht⟩
    rcases hts : a.ts with _ | t0
    · simp only [hts, Option.isNone_none, Bool.true_and]
      rw [List.any_eq_false]
      intro b hb
      have hk : sortKey b ≤ sortKey a := ha b hb
      have hk0 : sortKey a = 0 := by simp [sortKey, hts]
      rcases hbs : b.ts with _ | tb
      · simp [hbs]
      · have hkb : sortKey b = tb := by simp [sortKey, hbs]
        simp only [hbs, decide_eq_true_eq]
        omega
    · simp [hts]

/-! ### Claim theorems: fetcher sort and replay -/

/-- Claim C8 as stated is false: an item whose timestamp is exactly
the epoch instant ties with a missing-timestamp item (both compare as
new Date(0)), and the stable sort then keeps the missing-timestamp
item in front of it. -/
theorem fetch_sort_missing_counterexample :
    ¬ (∀ l : List Item, missBeforePresent (fetchSince l) = false) := by
  intro h
  exact absurd (h [⟨0, none, [], [], [], []⟩, ⟨1, some 0, [], [], [], []⟩]) (by decide)

/-- Claim C8 amended: after the newest-first sort, every item with a
missing timestamp is placed after every item whose timestamp is
present and strictly later than the epoch; epoch-timestamped items may
tie with missing ones and keep their original relative order. -/
theorem fetch_sort_missing_after_later : ∀ l : List Item,
    missBeforeLater (fetchSince l) = false := fun l =>
  missBeforeLater_sorted (sorted_sortItems l)

/-- Claim C9: replay posts exactly min(N, M) items, the first N of the
newest-first fetch result, in oldest-to-newest order, and returns the
state it was given, untouched. -/
theorem replay_correct : ∀ (n : Nat) (raw : List Item) (s : WState),
    (replayLatest n raw s).2 = s
    ∧ (replayLatest n raw s).1.length = min n raw.length
    ∧ (replayLatest n raw s).1 = ((fetchSince raw).take n).reverse
    ∧ (replayLatest n raw s).1.Pairwise (fun a b => sortKey a ≤ sortKey b)
    ∧ ∀ a ∈ (fetchSince raw).take n, ∀ b ∈ (fetchSince raw).drop n, sortKey b ≤ sortKey a := by
  intro n raw s
  refine ⟨rfl, ?_, rfl, ?_, ?_⟩
  · show (((fetchSince raw).take n).reverse).length = min n raw.length
    rw [List.length_reverse, List.length_take]
    rw [show fetchSince raw = sortItems raw from rfl, length_sortItems]
  · show (((fetchSince raw).take n).reverse).Pairwise (fun a b => sortKey a ≤ sortKey b)
    rw [List.pairwise_reverse]
    exact List.Pairwise.sublist (List.take_sublist n _) (sorted_sortItems raw)
  · intro a ha b hb
    have hp := sorted_sortItems raw
    rw [← List.take_append_drop n (sortItems raw)] at hp
    exact (List.pairwise_append.mp hp).2.2 a ha b hb

/-! ### Helper lemmas: poll cycle with no watermark -/

theorem selectNew_no_watermark {l : List Item} {s : WState} (h : s.lastISO = none) :
    selectNew l s = l := by
  apply List.filter_eq_self.mpr
  intro a _
  simp [tsNewer, h]

/-- Claim C10: when no watermark exists and every fetched item lacks a
timestamp, a successful delivery still commits the delivered ids into
the seen set while lastTimestamp stays unset. -/
theorem poll_all_missing_ts (send : Item → Bool) (raw : List Item) (s : WState)
    (h1 : s.lastISO = none) (h2 : ∀ a ∈ raw, a.ts = none) (h3 : raw ≠ [])
    (h4 : sendBatch send (selectNew (fetchSince raw) s) = true) :
    pollOnce send raw s =
      { lastISO := none
        seenIds := capLast 500
          (dedupKeepFirst (s.seenIds ++ (fetchSince raw).map (fun a => a.id))) }
    ∧ (s.seenIds.length + raw.length ≤ 500 →
        ∀ a ∈ raw, a.id ∈ (pollOnce send raw s).seenIds) := by
  have hsel : selectNew (fetchSince raw) s = fetchSince raw := selectNew_no_watermark h1
  have hne : fetchSince raw ≠ [] := by
    intro h0
    apply h3
    have hlen := length_sortItems raw
    rw [show sortItems raw = fetchSince raw from rfl, h0] at hlen
    exact List.length_eq_zero.mp hlen.symm
  have hnt : newestTsOf (fetchSince raw) s = none := by
    rcases hf : fetchSince raw with _ | ⟨a0, rest⟩
    · exact absurd hf hne
    · have ha0 : a0 ∈ raw := by
        rw [← mem_sortItems]
        rw [show sortItems raw = fetchSince raw from rfl, hf]
        exact List.mem_cons_self _ _
      simp [newestTsOf, h2 a0 ha0, h1]
  have hpoll : pollOnce send raw s =
      { lastISO := none
        seenIds := capLast 500
          (dedupKeepFirst (s.seenIds ++ (fetchSince raw).map (fun a => a.id))) } := by
    have h4x : sendBatch send (fetchSince raw) = true := by
      rw [← hsel]
      exact h4
    unfold pollOnce
    simp only [hsel, hnt, h4x, if_true]
    simp [hne, updateState, newLastISO, h1]
  refine ⟨hpoll, ?_⟩
  intro hlen a ha
  rw [hpoll]
  have hdlen : (dedupKeepFirst (s.seenIds ++ (fetchSince raw).map (fun a => a.id))).length ≤ 500 := by
    have h5 := dedupKeepFirst_length_le (s.seenIds ++ (fetchSince raw).map (fun a => a.id))
    have h6 : ((fetchSince raw).map (fun a => a.id)).length = raw.length := by
      rw [List.length_map, show fetchSince raw = sortItems raw from rfl, length_sortItems]
    rw [List.length_append, h6] at h5
    omega
  show a.id ∈ capLast 500 (dedupKeepFirst (s.seenIds ++ (fetchSince raw).map (fun a => a.id)))
  rw [capLast_of_short hdlen]
  apply dedupKeepFirst_mem.mpr
  apply List.mem_append.mpr
  right
  exact List.mem_map.mpr ⟨a, mem_sortItems.mpr ha, rfl⟩

/-- Concrete instance for C10: one timestampless item, no watermark,
send succeeds; the id lands in the seen set and the watermark stays
unset. -/
theorem poll_all_missing_ts_witness :
    ((⟨none, [3]⟩ : WState).lastISO = none
      ∧ (∀ a ∈ [(⟨7, none, [], [], [], []⟩ : Item)], a.ts = none)
      ∧ [(⟨7, none, [], [], [], []⟩ : Item)] ≠ []
      ∧ sendBatch (fun _ => true)
          (selectNew (fetchSince [(⟨7, none, [], [], [], []⟩ : Item)]) ⟨none, [3]⟩) = true)
    ∧ (pollOnce (fun _ => true) [(⟨7, none, [], [], [], []⟩ : Item)] ⟨none, [3]⟩ =
        { lastISO := none
          seenIds := capLast 500 (dedupKeepFirst ([3] ++
            (fetchSince [(⟨7, none, [], [], [], []⟩ : Item)]).map (fun a => a.id))) }
      ∧ (([3] : List Nat).length + [(⟨7, none, [], [], [], []⟩ : Item)].length ≤ 500 →
          ∀ a ∈ [(⟨7, none, [], [], [], []⟩ : Item)],
            a.id ∈ (pollOnce (fun _ => true)
              [(⟨7, none, [], [], [], []⟩ : Item)] ⟨none, [3]⟩).seenIds)) :=
  ⟨⟨rfl, by decide, by decide, by decide⟩,
    poll_all_missing_ts _ _ _ rfl (by decide) (by decide) (by decide)⟩

/-! ### Claim theorems: message formatter -/

/-- Claim C4 fails on the code: when the header and footer already
exhaust the 2000-unit budget, message.slice(0, maxBody - 1) becomes
slice(0, -1), which keeps all but the last character of the body and
appends an ellipsis, so the payload exceeds 2000 units. -/
theorem formatter_overflow_bug :
    2000 < (buildDiscordMessage (fun _ => [])
      ⟨0, none, List.replicate 1980 'x', ['A'], ['u'], ['h', 'i']⟩).length := by
  have hh : (headerOf (fun _ => [])
      ⟨0, none, List.replicate 1980 'x', ['A'], ['u'], ['h', 'i']⟩).length = 2012 := by
    have e1 : ("**".toList).length = 2 := by decide
    have e2 : ("**\nPosted: ".toList).length = 11 := by decide
    have e3 : ("unknown time".toList).length = 12 := by decide
    have e4 : (" by ".toList).length = 4 := by decide
    have e5 : ("\n\n".toList).length = 2 := by decide
    simp only [headerOf, List.length_append, e1, e2, e3, e4, e5,
      List.length_replicate, List.length_cons, List.length_nil]
  have hl : (linkLineOf
      ⟨0, none, List.replicate 1980 'x', ['A'], ['u'], ['h', 'i']⟩).length = 5 := by
    decide
  have hm : maxBodyOf (fun _ => [])
      ⟨0, none, List.replicate 1980 'x', ['A'], ['u'], ['h', 'i']⟩ = 0 := by
    rw [maxBodyOf, hh, hl]
    decide
  have hb : (bodyOf (fun _ => [])
      ⟨0, none, List.replicate 1980 'x', ['A'], ['u'], ['h', 'i']⟩).length = 2 := by
    rw [bodyOf, hm]
    decide
  rw [buildDiscordMessage, List.length_append, List.length_append, hh, hl, hb]
  omega

/-- Claim C5 fails on the code: with a zero body budget and a nonempty
message the emitted payload is not header followed directly by footer;
the body keeps all but the last message character plus an ellipsis. -/
theorem formatter_no_elide_bug :
    maxBodyOf (fun _ => []) ⟨1, none, List.replicate 1990 'y', ['B'], ['v'], ['z']⟩ = 0
    ∧ buildDiscordMessage (fun _ => []) ⟨1, none, List.replicate 1990 'y', ['B'], ['v'], ['z']⟩
      ≠ headerOf (fun _ => []) ⟨1, none, List.replicate 1990 'y', ['B'], ['v'], ['z']⟩
        ++ linkLineOf ⟨1, none, List.replicate 1990 'y', ['B'], ['v'], ['z']⟩ := by
  have hh : (headerOf (fun _ => [])
      ⟨1, none, List.replicate 1990 'y', ['B'], ['v'], ['z']⟩).length = 2022 := by
    have e1 : ("**".toList).length = 2 := by decide
    have e2 : ("**\nPosted: ".toList).length = 11 := by decide
    have e3 : ("unknown time".toList).length = 12 := by decide
    have e4 : (" by ".toList).length = 4 := by decide
    have e5 : ("\n\n".toList).length = 2 := by decide
    simp only [headerOf, List.length_append, e1, e2, e3, e4, e5,
      List.length_replicate, List.length_cons, List.length_nil]
  have hl : (linkLineOf ⟨1, none, List.replicate 1990 'y', ['B'], ['v'], ['z']⟩).length = 5 := by
    decide
  have hm : maxBodyOf (fun _ => [])
      ⟨1, none, List.replicate 1990 'y', ['B'], ['v'], ['z']⟩ = 0 := by
    rw [maxBodyOf, hh, hl]
    decide
  refine ⟨hm, ?_⟩
  intro heq
  have hb : (bodyOf (fun _ => [])
      ⟨1, none, List.replicate 1990 'y', ['B'], ['v'], ['z']⟩).length = 1 := by
    rw [bodyOf, hm]
    decide
  have hlen := congrArg List.length heq
  rw [buildDiscordMessage, List.length_append, List.length_append, hh, hl, hb,
    List.length_append, hh, hl] at hlen
  omega

/-! ### Helper lemmas: tag predicates -/

theorem okTags_cons_ne {c : Char} (t : List Char) (hc : c ≠ '<') :
    okTags (c :: t) = okTags t := by
  conv_lhs => rw [okTags.eq_def]
  simp only [if_neg hc]

theorem okTags_lt_gt (u : List Char) : okTags ('<' :: '>' :: u) = okTags ('>' :: u) := rfl

theorem okTags_lt_ne {d : Char} (u : List Char) (hd : d ≠ '>') :
    okTags ('<' :: d :: u) = !((d :: u).contains '>') := by
  conv_lhs => rw [okTags.eq_def]
  simp [hd]

theorem okTags_of_no_gt : ∀ {l : List Char}, '>' ∉ l → okTags l = true
  | [], _ => rfl
  | c :: t, h => by
    have ht : '>' ∉ t := fun e => h (List.mem_cons_of_mem c e)
    by_cases hc : c = '<'
    · subst hc
      rcases t with _ | ⟨d, u⟩
      · rfl
      · have hd : d ≠ '>' := by
          intro e
          exact ht (e ▸ List.mem_cons_self d u)
        rw [okTags_lt_ne u hd]
        simp only [Bool.not_eq_true']
        simpa using ht
    · rw [okTags_cons_ne t hc]
      exact okTags_of_no_gt ht

theorem hasTag_false_of_no_gt : ∀ {l : List Char}, '>' ∉ l → hasTag l = false
  | [], _ => rfl
  | c :: t, h => by
    have ht : '>' ∉ t := fun e => h (List.mem_cons_of_mem c e)
    simp only [hasTag, Bool.or_eq_false_iff]
    refine ⟨?_, hasTag_false_of_no_gt ht⟩
    by_cases hc : c = '<'
    · subst hc
      rcases t with _ | ⟨d, u⟩
      · rfl
      · have hu' : '>' ∉ u := fun e => ht (List.mem_cons_of_mem d e)
        simp [startsTag, hu']
    · simp [startsTag, hc]

theorem hasTag_false_of_okTags : ∀ l : List Char, okTags l = true → hasTag l = false := by
  intro l
  induction l with
  | nil => intro _; rfl
  | cons c t ih =>
    intro h
    simp only [hasTag, Bool.or_eq_false_iff]
    by_cases hc : c = '<'
    · subst hc
      rcases t with _ | ⟨d, u⟩
      · exact ⟨rfl, rfl⟩
      · by_cases hd : d = '>'
        · subst hd
          rw [okTags_lt_gt] at h
          exact ⟨by simp [startsTag], ih h⟩
        · rw [okTags_lt_ne u hd] at h
          simp only [Bool.not_eq_true'] at h
          have hgt : '>' ∉ d :: u := by
            intro e
            rw [List.contains_eq_any_beq] at h
            have := List.any_eq_false.mp h '>' e
            simp at this
          have hu : '>' ∉ u := fun e => hgt (List.mem_cons_of_mem d e)
          exact ⟨by simp [startsTag, hu], hasTag_false_of_no_gt hgt⟩
    · rw [okTags_cons_ne t hc] at h
      exact ⟨by simp [startsTag, hc], ih h⟩

/-! ### Helper lemmas: whitespace deletion -/

theorem wdel_refl : ∀ l : List Char, WDel l l
  | [] => WDel.nil
  | c :: t => WDel.keep c (wdel_refl t)

theorem wdel_sublist {s t : List Char} (h : WDel s t) : List.Sublist t s := by
  induction h with
  | nil => exact List.Sublist.refl []
  | keep c _ ih => exact List.Sublist.cons₂ c ih
  | del c _ _ ih => exact List.Sublist.cons c ih

theorem wdel_of_all_ws : ∀ {l : List Char}, (∀ c ∈ l, isWsJS c = true) → WDel l []
  | [], _ => WDel.nil
  | c :: t, h =>
    WDel.del c (h c (List.mem_cons_self c t))
      (wdel_of_all_ws fun d hd => h d (List.mem_cons_of_mem c hd))

theorem wdel_append {a b c d : List Char} (h1 : WDel a b) (h2 : WDel c d) :
    WDel (a ++ c) (b ++ d) := by
  induction h1 with
  | nil => simpa using h2
  | keep x _ ih => exact WDel.keep x ih
  | del x hws _ ih => exact WDel.del x hws ih

theorem wdel_trans : ∀ {a b c : List Char}, WDel a b → WDel b c → WDel a c := by
  intro a b c h1
  induction h1 generalizing c with
  | nil =>
    intro h2
    cases h2
    exact WDel.nil
  | keep x _ ih =>
    intro h2
    cases h2 with
    | keep _ h2x => exact WDel.keep x (ih h2x)
    | del _ hws h2x => exact WDel.del x hws (ih h2x)
  | del x hws _ ih =>
    intro h2
    exact WDel.del x hws (ih h2)

theorem wdel_dropWhile (l : List Char) : WDel l (l.dropWhile isWsJS) := by
  induction l with
  | nil => exact WDel.nil
  | cons c t ih =>
    by_cases hc : isWsJS c
    · rw [List.dropWhile_cons_of_pos hc]
      exact WDel.del c hc ih
    · rw [List.dropWhile_cons_of_neg hc]
      exact wdel_refl _

theorem wdel_trimEnd (u : List Char) : WDel u ((u.reverse.dropWhile isWsJS).reverse) := by
  have hr : u.reverse.takeWhile isWsJS ++ u.reverse.dropWhile isWsJS = u.reverse :=
    List.takeWhile_append_dropWhile isWsJS u.reverse
  have hu : u = (u.reverse.dropWhile isWsJS).reverse ++ (u.reverse.takeWhile isWsJS).reverse := by
    conv_lhs => rw [← List.reverse_reverse u, ← hr]
    rw [List.reverse_append]
  have h2 : WDel ((u.reverse.takeWhile isWsJS).reverse) [] :=
    wdel_of_all_ws fun c hc => List.mem_takeWhile_imp (List.mem_reverse.mp hc)
  have h3 := wdel_append (wdel_refl ((u.reverse.dropWhile isWsJS).reverse)) h2
  rw [List.append_nil] at h3
  rw [← hu] at h3
  exact h3

theorem wdel_jsTrim (l : List Char) : WDel l (jsTrim l) :=
  wdel_trans (wdel_dropWhile l) (wdel_trimEnd (l.dropWhile isWsJS))

theorem intercalate_nl_cons_cons (x y : List Char) (A : List (List Char)) :
    List.intercalate ['\n'] (x :: y :: A) = x ++ '\n' :: List.intercalate ['\n'] (y :: A) := by
  simp [List.intercalate, List.intersperse]

theorem forall2_wdel_map_jsTrim : ∀ A : List (List Char), List.Forall₂ WDel A (A.map jsTrim)
  | [] => List.Forall₂.nil
  | x :: A => List.Forall₂.cons (wdel_jsTrim x) (forall2_wdel_map_jsTrim A)

theorem wdel_intercalate : ∀ {A B : List (List Char)}, List.Forall₂ WDel A B →
    WDel (List.intercalate ['\n'] A) (List.intercalate ['\n'] B) := by
  intro A B h
  induction h with
  | nil => exact WDel.nil
  | cons hxy htail ih =>
    cases htail with
    | nil => simpa [List.intercalate] using hxy
    | cons h2 h3 =>
      rw [intercalate_nl_cons_cons, intercalate_nl_cons_cons]
      exact wdel_append hxy (WDel.keep '\n' ih)

theorem wdel_trimLines (l : List Char) : WDel l (trimLines l) := by
  have h := wdel_intercalate (forall2_wdel_map_jsTrim (l.splitOn '\n'))
  rw [List.intercalate_splitOn] at h
  exact h

theorem wdel_collapseGo : ∀ (l : List Char) (k : Nat), WDel l (collapseGo k l)
  | [], _ => WDel.nil
  | c :: t, k => by
    by_cases hc : c = '\n'
    · subst hc
      by_cases hk : k < 2
      · simp only [collapseGo, if_pos rfl, if_pos hk]
        exact WDel.keep '\n' (wdel_collapseGo t (k + 1))
      · simp only [collapseGo, if_pos rfl, if_neg hk]
        exact WDel.del '\n' (by decide) (wdel_collapseGo t (k + 1))
    · simp only [collapseGo, if_neg hc]
      exact WDel.keep c (wdel_collapseGo t 0)

theorem okTags_wdel : ∀ {s t : List Char}, WDel s t → okTags s = true → okTags t = true := by
  intro s t h
  induction h with
  | nil => exact fun h0 => h0
  | @del c s1 t1 hws _ ih =>
    intro hok
    have hc : c ≠ '<' := by
      intro e
      rw [e] at hws
      exact absurd hws (by decide)
    rw [okTags_cons_ne _ hc] at hok
    exact ih hok
  | @keep c s1 t1 hsub ih =>
    intro hok
    by_cases hc : c = '<'
    · subst hc
      rcases s1 with _ | ⟨d, u⟩
      · cases hsub
        rfl
      · by_cases hd : d = '>'
        · subst hd
          rw [okTags_lt_gt] at hok
          cases hsub with
          | @keep _ _ t2 hsub2 =>
            rw [okTags_lt_gt]
            exact ih hok
          | del _ hws _ => exact absurd hws (by decide)
        · rw [okTags_lt_ne u hd] at hok
          simp only [Bool.not_eq_true'] at hok
          have hgt : '>' ∉ d :: u := by
            intro e
            rw [List.contains_eq_any_beq] at hok
            have := List.any_eq_false.mp hok '>' e
            simp at this
          have hgt1 : '>' ∉ t1 := fun e => hgt ((wdel_sublist hsub).mem e)
          rcases t1 with _ | ⟨e, v⟩
          · rfl
          · have he : e ≠ '>' := by
              intro hee
              exact hgt1 (hee ▸ List.mem_cons_self e v)
            rw [okTags_lt_ne v he]
            simp only [Bool.not_eq_true']
            simpa using hgt1
    · rw [okTags_cons_ne _ hc] at hok
      rw [okTags_cons_ne _ hc]
      exact ih hok

/-! ### Helper lemmas: tag stripping -/

theorem strip_ok : ∀ (l pend : List Char), '>' ∉ pend → okTags (stripT l pend) = true
  | [], pend, h => by
    simp only [stripT]
    exact okTags_of_no_gt (fun e => h (List.mem_reverse.mp e))
  | c :: t, pend, h => by
    by_cases hp : pend.isEmpty
    · simp only [stripT, if_pos hp]
      by_cases hc : c = '<'
      · rw [if_pos hc]
        exact strip_ok t ['<'] (by decide)
      · rw [if_neg hc]
        rw [okTags_cons_ne _ hc]
        exact strip_ok t [] (by simp)
    · simp only [stripT, if_neg hp]
      by_cases hc : c = '>'
      · rw [if_pos hc]
        by_cases h2 : 2 ≤ pend.length
        · rw [if_pos h2]
          exact strip_ok t [] (by simp)
        · rw [if_neg h2]
          rcases pend with _ | ⟨p, ps⟩
          · exact absurd rfl hp
          · rcases ps with _ | ⟨q, qs⟩
            · have hrest : okTags (stripT t []) = true := strip_ok t [] (by simp)
              by_cases hpl : p = '<'
              · subst hpl
                show okTags ('<' :: '>' :: stripT t []) = true
                rw [okTags_lt_gt, okTags_cons_ne _ (by decide : ('>' : Char) ≠ '<')]
                exact hrest
              · show okTags (p :: '>' :: stripT t []) = true
                rw [okTags_cons_ne _ hpl, okTags_cons_ne _ (by decide : ('>' : Char) ≠ '<')]
                exact hrest
            · exfalso
              apply h2
              simp only [List.length_cons]
              omega
      · rw [if_neg hc]
        apply strip_ok t (c :: pend)
        intro e
        rcases List.mem_cons.mp e with e1 | e2
        · exact hc e1.symm
        · exact h e2

theorem mem_stripT : ∀ (l pend : List Char) {c : Char}, c ∈ stripT l pend → c ∈ l ∨ c ∈ pend
  | [], pend, c, h => by
    simp only [stripT] at h
    exact Or.inr (List.mem_reverse.mp h)
  | x :: t, pend, c, h => by
    by_cases hp : pend.isEmpty
    · simp only [stripT, if_pos hp] at h
      by_cases hx : x = '<'
      · rw [if_pos hx] at h
        rcases mem_stripT t ['<'] h with h1 | h1
        · exact Or.inl (List.mem_cons_of_mem x h1)
        · rw [List.mem_singleton.mp h1, hx]
          exact Or.inl (List.mem_cons_self _ _)
      · rw [if_neg hx] at h
        rcases List.mem_cons.mp h with rfl | h1
        · exact Or.inl (List.mem_cons_self _ _)
        · rcases mem_stripT t [] h1 with h2 | h2
          · exact Or.inl (List.mem_cons_of_mem x h2)
          · exact absurd h2 (List.not_mem_nil c)
    · simp only [stripT, if_neg hp] at h
      by_cases hx : x = '>'
      · rw [if_pos hx] at h
        by_cases h2 : 2 ≤ pend.length
        · rw [if_pos h2] at h
          rcases mem_stripT t [] h with h3 | h3
          · exact Or.inl (List.mem_cons_of_mem x h3)
          · exact absurd h3 (List.not_mem_nil c)
        · rw [if_neg h2] at h
          rcases List.mem_append.mp h with h3 | h3
          · exact Or.inr (List.mem_reverse.mp h3)
          · rcases List.mem_cons.mp h3 with rfl | h4
            · rw [hx]
              exact Or.inl (List.mem_cons_self _ _)
            · rcases mem_stripT t [] h4 with h5 | h5
              · exact Or.inl (List.mem_cons_of_mem x h5)
              · exact absurd h5 (List.not_mem_nil c)
      · rw [if_neg hx] at h
        rcases mem_stripT t (x :: pend) h with h1 | h1
        · exact Or.inl (List.mem_cons_of_mem x h1)
        · rcases List.mem_cons.mp h1 with rfl | h2
          · exact Or.inl (List.mem_cons_self _ _)
          · exact Or.inr h2

/-! ### Helper lemmas: characters produced by the replacement scanners -/

theorem brTail_sublist : ∀ {l r : List Char}, brTail l = some r → List.Sublist r l := by
  intro l
  induction l with
  | nil => intro r h; simp [brTail] at h
  | cons x t ih =>
    intro r h
    simp only [brTail] at h
    by_cases h1 : isWsJS x
    · rw [if_pos h1] at h
      exact (ih h).cons x
    · rw [if_neg h1] at h
      by_cases h2 : x = '/'
      · rw [if_pos h2] at h
        split at h
        · injection h with h
          subst h
          exact List.Sublist.cons x (List.Sublist.cons '>' (List.Sublist.refl _))
        · exact absurd h (by simp)
      · rw [if_neg h2] at h
        by_cases h3 : x = '>'
        · rw [if_pos h3] at h
          injection h with h
          rw [← h]
          exact List.Sublist.cons x (List.Sublist.refl _)
        · rw [if_neg h3] at h
          exact absurd h (by simp)

theorem brReplF_mem : ∀ (f : Nat) (l : List Char), ∀ {c : Char},
    c ∈ brReplF f l → c ∈ l ∨ c = '\n' := by
  intro f l
  induction f, l using brReplF.induct with
  | case1 l => exact fun hc => Or.inl hc
  | case2 n =>
    intro c hc
    simp only [brReplF] at hc
    exact absurd hc (List.not_mem_nil c)
  | case3 f c1 c2 t2 hbr r hbt ih =>
    intro c hc
    rw [show brReplF (f + 1) ('<' :: c1 :: c2 :: t2) = '\n' :: brReplF f r from by
      simp only [brReplF, if_pos hbr, hbt, if_true]] at hc
    rcases List.mem_cons.mp hc with rfl | h1
    · exact Or.inr rfl
    · rcases ih h1 with h2 | h2
      · exact Or.inl (List.mem_cons_of_mem _ (List.mem_cons_of_mem _
          (List.mem_cons_of_mem _ ((brTail_sublist hbt).mem h2))))
      · exact Or.inr h2
  | case4 f c1 c2 t2 hbr hbt ih =>
    intro c hc
    rw [show brReplF (f + 1) ('<' :: c1 :: c2 :: t2) = '<' :: brReplF f (c1 :: c2 :: t2) from by
      simp only [brReplF, if_pos hbr, hbt, if_true]] at hc
    rcases List.mem_cons.mp hc with rfl | h1
    · exact Or.inl (List.mem_cons_self _ _)
    · rcases ih h1 with h2 | h2
      · exact Or.inl (List.mem_cons_of_mem _ h2)
      · exact Or.inr h2
  | case5 f c1 c2 t2 hbr ih =>
    intro c hc
    rw [show brReplF (f + 1) ('<' :: c1 :: c2 :: t2) = '<' :: brReplF f (c1 :: c2 :: t2) from by
      simp only [brReplF, if_neg hbr, if_true]] at hc
    rcases List.mem_cons.mp hc with rfl | h1
    · exact Or.inl (List.mem_cons_self _ _)
    · rcases ih h1 with h2 | h2
      · exact Or.inl (List.mem_cons_of_mem _ h2)
      · exact Or.inr h2
  | case6 f t hfalse ih =>
    intro c hc
    simp only [brReplF, if_true] at hc
    rcases List.mem_cons.mp hc with rfl | h1
    · exact Or.inl (List.mem_cons_self _ _)
    · rcases ih h1 with h2 | h2
      · exact Or.inl (List.mem_cons_of_mem _ h2)
      · exact Or.inr h2
  | case7 f c0 t hc0 ih =>
    intro c hc
    rw [show brReplF (f + 1) (c0 :: t) = c0 :: brReplF f t from by
      simp only [brReplF, if_neg hc0]] at hc
    rcases List.mem_cons.mp hc with rfl | h1
    · exact Or.inl (List.mem_cons_self _ _)
    · rcases ih h1 with h2 | h2
      · exact Or.inl (List.mem_cons_of_mem _ h2)
      · exact Or.inr h2

theorem pCloseReplF_mem : ∀ (f : Nat) (l : List Char), ∀ {c : Char},
    c ∈ pCloseReplF f l → c ∈ l ∨ c = '\n' := by
  intro f l
  induction f, l using pCloseReplF.induct with
  | case1 l => exact fun hc => Or.inl hc
  | case2 n =>
    intro c hc
    simp only [pCloseReplF] at hc
    exact absurd hc (List.not_mem_nil c)
  | case3 f c1 r hp ih =>
    intro c hc
    rw [show pCloseReplF (f + 1) ('<' :: '/' :: c1 :: '>' :: r) = '\n' :: pCloseReplF f r from by
      simp only [pCloseReplF, if_pos hp, if_true]] at hc
    rcases List.mem_cons.mp hc with rfl | h1
    · exact Or.inr rfl
    · rcases ih h1 with h2 | h2
      · exact Or.inl (List.mem_cons_of_mem _ (List.mem_cons_of_mem _
          (List.mem_cons_of_mem _ (List.mem_cons_of_mem _ h2))))
      · exact Or.inr h2
  | case4 f c1 r hp ih =>
    intro c hc
    rw [show pCloseReplF (f + 1) ('<' :: '/' :: c1 :: '>' :: r)
        = '<' :: pCloseReplF f ('/' :: c1 :: '>' :: r) from by
      simp only [pCloseReplF, if_neg hp, if_true]] at hc
    rcases List.mem_cons.mp hc with rfl | h1
    · exact Or.inl (List.mem_cons_self _ _)
    · rcases ih h1 with h2 | h2
      · exact Or.inl (List.mem_cons_of_mem _ h2)
      · exact Or.inr h2
  | case5 f t hfalse ih =>
    intro c hc
    simp only [pCloseReplF, if_true] at hc
    rcases List.mem_cons.mp hc with rfl | h1
    · exact Or.inl (List.mem_cons_self _ _)
    · rcases ih h1 with h2 | h2
      · exact Or.inl (List.mem_cons_of_mem _ h2)
      · exact Or.inr h2
  | case6 f c0 t hc0 ih =>
    intro c hc
    rw [show pCloseReplF (f + 1) (c0 :: t) = c0 :: pCloseReplF f t from by
      simp only [pCloseReplF, if_neg hc0]] at hc
    rcases List.mem_cons.mp hc with rfl | h1
    · exact Or.inl (List.mem_cons_self _ _)
    · rcases ih h1 with h2 | h2
      · exact Or.inl (List.mem_cons_of_mem _ h2)
      · exact Or.inr h2

theorem liOpenReplF_mem : ∀ (f : Nat) (l : List Char), ∀ {c : Char},
    c ∈ liOpenReplF f l → c ∈ l ∨ c = '•' ∨ c = ' ' := by
  intro f l
  induction f, l using liOpenReplF.induct with
  | case1 l => exact fun hc => Or.inl hc
  | case2 n =>
    intro c hc
    simp only [liOpenReplF] at hc
    exact absurd hc (List.not_mem_nil c)
  | case3 f c1 c2 r hli ih =>
    intro c hc
    rw [show liOpenReplF (f + 1) ('<' :: c1 :: c2 :: '>' :: r)
        = '•' :: ' ' :: liOpenReplF f r from by
      simp only [liOpenReplF, if_pos hli, if_true]] at hc
    rcases List.mem_cons.mp hc with rfl | h1
    · exact Or.inr (Or.inl rfl)
    · rcases List.mem_cons.mp h1 with rfl | h2
      · exact Or.inr (Or.inr rfl)
      · rcases ih h2 with h3 | h3
        · exact Or.inl (List.mem_cons_of_mem _ (List.mem_cons_of_mem _
            (List.mem_cons_of_mem _ (List.mem_cons_of_mem _ h3))))
        · exact Or.inr h3
  | case4 f c1 c2 r hli ih =>
    intro c hc
    rw [show liOpenReplF (f + 1) ('<' :: c1 :: c2 :: '>' :: r)
        = '<' :: liOpenReplF f (c1 :: c2 :: '>' :: r) from by
      simp only [liOpenReplF, if_neg hli, if_true]] at hc
    rcases List.mem_cons.mp hc with rfl | h1
    · exact Or.inl (List.mem_cons_self _ _)
    · rcases ih h1 with h2 | h2
      · exact Or.inl (List.mem_cons_of_mem _ h2)
      · exact Or.inr h2
  | case5 f t hfalse ih =>
    intro c hc
    simp only [liOpenReplF, if_true] at hc
    rcases List.mem_cons.mp hc with rfl | h1
    · exact Or.inl (List.mem_cons_self _ _)
    · rcases ih h1 with h2 | h2
      · exact Or.inl (List.mem_cons_of_mem _ h2)
      · exact Or.inr h2
  | case6 f c0 t hc0 ih =>
    intro c hc
    rw [show liOpenReplF (f + 1) (c0 :: t) = c0 :: liOpenReplF f t from by
      simp only [liOpenReplF, if_neg hc0]] at hc
    rcases List.mem_cons.mp hc with rfl | h1
    · exact Or.inl (List.mem_cons_self _ _)
    · rcases ih h1 with h2 | h2
      · exact Or.inl (List.mem_cons_of_mem _ h2)
      · exact Or.inr h2

theorem liCloseReplF_mem : ∀ (f : Nat) (l : List Char), ∀ {c : Char},
    c ∈ liCloseReplF f l → c ∈ l ∨ c = '\n' := by
  intro f l
  induction f, l using liCloseReplF.induct with
  | case1 l => exact fun hc => Or.inl hc
  | case2 n =>
    intro c hc
    simp only [liCloseReplF] at hc
    exact absurd hc (List.not_mem_nil c)
  | case3 f c1 c2 r hli ih =>
    intro c hc
    rw [show liCloseReplF (f + 1) ('<' :: '/' :: c1 :: c2 :: '>' :: r)
        = '\n' :: liCloseReplF f r from by
      simp only [liCloseReplF, if_pos hli, if_true]] at hc
    rcases List.mem_cons.mp hc with rfl | h1
    · exact Or.inr rfl
    · rcases ih h1 with h2 | h2
      · exact Or.inl (List.mem_cons_of_mem _ (List.mem_cons_of_mem _
          (List.mem_cons_of_mem _ (List.mem_cons_of_mem _ (List.mem_cons_of_mem _ h2)))))
      · exact Or.inr h2
  | case4 f c1 c2 r hli ih =>
    intro c hc
    rw [show liCloseReplF (f + 1) ('<' :: '/' :: c1 :: c2 :: '>' :: r)
        = '<' :: liCloseReplF f ('/' :: c1 :: c2 :: '>' :: r) from by
      simp only [liCloseReplF, if_neg hli, if_true]] at hc
    rcases List.mem_cons.mp hc with rfl | h1
    · exact Or.inl (List.mem_cons_self _ _)
    · rcases ih h1 with h2 | h2
      · exact Or.inl (List.mem_cons_of_mem _ h2)
      · exact Or.inr h2
  | case5 f t hfalse ih =>
    intro c hc
    simp only [liCloseReplF, if_true] at hc
    rcases List.mem_cons.mp hc with rfl | h1
    · exact Or.inl (List.mem_cons_self _ _)
    · rcases ih h1 with h2 | h2
      · exact Or.inl (List.mem_cons_of_mem _ h2)
      · exact Or.inr h2
  | case6 f c0 t hc0 ih =>
    intro c hc
    rw [show liCloseReplF (f + 1) (c0 :: t) = c0 :: liCloseReplF f t from by
      simp only [liCloseReplF, if_neg hc0]] at hc
    rcases List.mem_cons.mp hc with rfl | h1
    · exact Or.inl (List.mem_cons_self _ _)
    · rcases ih h1 with h2 | h2
      · exact Or.inl (List.mem_cons_of_mem _ h2)
      · exact Or.inr h2

/-! ### Helper lemmas: entity decoding -/

set_option maxHeartbeats 2000000 in
theorem decodeEnts_cons_ne {c : Char} (t : List Char) (hc : c ≠ '&') :
    decodeEnts (c :: t) = c :: decodeEnts t := by
  rw [decodeEnts.eq_def]
  split
  all_goals rename_i heq
  all_goals first
    | (injection heq with h1 h2
       subst h1
       subst h2
       rfl)
    | (simp only [List.cons.injEq] at heq
       exact absurd heq.1 hc)
    | (exact absurd heq (by simp))

theorem decodeEnts_id : ∀ {l : List Char}, '&' ∉ l → decodeEnts l = l
  | [], _ => rfl
  | c :: t, h => by
    have hc : c ≠ '&' := fun e => h (e ▸ List.mem_cons_self c t)
    rw [decodeEnts_cons_ne t hc, decodeEnts_id (fun e => h (List.mem_cons_of_mem c e))]

theorem hasEnt_false_of_no_amp : ∀ {l : List Char}, '&' ∉ l → hasEnt l = false
  | [], _ => rfl
  | c :: t, h => by
    have hc : c ≠ '&' := fun e => h (e ▸ List.mem_cons_self c t)
    have ht : '&' ∉ t := fun e => h (List.mem_cons_of_mem c e)
    simp only [hasEnt, Bool.or_eq_false_iff]
    refine ⟨?_, hasEnt_false_of_no_amp ht⟩
    rw [List.any_eq_false]
    intro e he
    simp only [entCodes, List.mem_cons, List.not_mem_nil, or_false] at he
    have hamp : ('&' : Char) ≠ c := fun hq => hc hq.symm
    rcases he with rfl | rfl | rfl | rfl | rfl | rfl
    · rw [show ("&nbsp;".toList) = '&' :: ['n', 'b', 's', 'p', ';'] from by decide]
      simp [List.isPrefixOf, hamp]
    · rw [show ("&amp;".toList) = '&' :: ['a', 'm', 'p', ';'] from by decide]
      simp [List.isPrefixOf, hamp]
    · rw [show ("&lt;".toList) = '&' :: ['l', 't', ';'] from by decide]
      simp [List.isPrefixOf, hamp]
    · rw [show ("&gt;".toList) = '&' :: ['g', 't', ';'] from by decide]
      simp [List.isPrefixOf, hamp]
    · rw [show ("&quot;".toList) = '&' :: ['q', 'u', 'o', 't', ';'] from by decide]
      simp [List.isPrefixOf, hamp]
    · rw [show ("&#39;".toList) = '&' :: ['#', '3', '9', ';'] from by decide]
      simp [List.isPrefixOf, hamp]

/-! ### Claim theorems: text normalizer -/

/-- Claim C7 counterexample: the claim as stated is false.  Entity
decoding runs after tag stripping in a single pass, so the input
consisting of the escaped form of a bold tag decodes to a literal
markup tag that survives into the output. -/
theorem normalizer_counterexample :
    ¬ (∀ s : List Char,
        hasTag (htmlToText s) = false ∧ hasEnt (htmlToText s) = false) := by
  intro h
  exact absurd (h ("&lt;b&gt;".toList)).1 (by decide)

/-- Claim C7 amended: for every raw markup input containing no
ampersand, the normalizer output contains no markup tag and no
occurrence of the six recognized entity codes.  (With ampersands the
single-pass decode, run after tag stripping, can reintroduce both.) -/
theorem normalizer_no_tags_no_ents (s : List Char) (h : '&' ∉ s) :
    hasTag (htmlToText s) = false ∧ hasEnt (htmlToText s) = false := by
  by_cases hs : s.isEmpty
  · rw [htmlToText, if_pos hs]
    exact ⟨rfl, rfl⟩
  · rw [htmlToText, if_neg hs]
    have h1 : '&' ∉ brRepl s := by
      intro e
      rcases brReplF_mem s.length s e with e1 | e1
      · exact h e1
      · exact absurd e1 (by decide)
    have h2 : '&' ∉ pCloseRepl (brRepl s) := by
      intro e
      rcases pCloseReplF_mem _ _ e with e1 | e1
      · exact h1 e1
      · exact absurd e1 (by decide)
    have h3 : '&' ∉ liOpenRepl (pCloseRepl (brRepl s)) := by
      intro e
      rcases liOpenReplF_mem _ _ e with e1 | e1 | e1
      · exact h2 e1
      · exact absurd e1 (by decide)
      · exact absurd e1 (by decide)
    have h4 : '&' ∉ liCloseRepl (liOpenRepl (pCloseRepl (brRepl s))) := by
      intro e
      rcases liCloseReplF_mem _ _ e with e1 | e1
      · exact h3 e1
      · exact absurd e1 (by decide)
    have h5 : '&' ∉ stripTags (liCloseRepl (liOpenRepl (pCloseRepl (brRepl s)))) := by
      intro e
      rcases mem_stripT _ [] e with e1 | e1
      · exact h4 e1
      · exact absurd e1 (List.not_mem_nil _)
    rw [decodeEnts_id h5]
    have hok5 : okTags (stripTags (liCloseRepl (liOpenRepl (pCloseRepl (brRepl s))))) = true :=
      strip_ok _ [] (List.not_mem_nil _)
    have hw6 := wdel_trimLines (stripTags (liCloseRepl (liOpenRepl (pCloseRepl (brRepl s)))))
    have hw7 := wdel_collapseGo
      (trimLines (stripTags (liCloseRepl (liOpenRepl (pCloseRepl (brRepl s)))))) 0
    have hw8 := wdel_jsTrim
      (collapseNl (trimLines (stripTags (liCloseRepl (liOpenRepl (pCloseRepl (brRepl s)))))))
    have hok8 : okTags (jsTrim (collapseNl (trimLines
        (stripTags (liCloseRepl (liOpenRepl (pCloseRepl (brRepl s)))))))) = true :=
      okTags_wdel hw8 (okTags_wdel hw7 (okTags_wdel hw6 hok5))
    have hamp : '&' ∉ jsTrim (collapseNl (trimLines
        (stripTags (liCloseRepl (liOpenRepl (pCloseRepl (brRepl s))))))) := by
      intro e
      exact h5 ((wdel_sublist hw6).mem ((wdel_sublist hw7).mem ((wdel_sublist hw8).mem e)))
    exact ⟨hasTag_false_of_okTags _ hok8, hasEnt_false_of_no_amp hamp⟩

/-- Concrete instance for the amended C7: a fully tagged input without
ampersands normalizes to text free of tags and entity codes. -/
theorem normalizer_no_tags_no_ents_witness :
    '&' ∉ ("<p>Hi <b>there</b></p>".toList)
    ∧ (hasTag (htmlToText ("<p>Hi <b>there</b></p>".toList)) = false
       ∧ hasEnt (htmlToText ("<p>Hi <b>there</b></p>".toList)) = false) :=
  ⟨by decide, normalizer_no_tags_no_ents _ (by decide)⟩
